import Mathlib

/-!
Verification development for `pm4py/algo/discovery/correlation_mining/versions/trace_based.py`.

Timestamps are modelled as rationals (`ℚ`): the Python code manipulates
seconds-since-epoch numbers with comparisons, subtraction, sums and division
only, so the embedding is exact over `ℚ`.
-/

namespace CorrMining

/-- An event record as built by `preprocess_log` (lines 85-87 of
`trace_based.py`): activity label, timestamp in seconds, trace-local
original index. -/
structure PEvent where
  activity : String
  timestamp : ℚ
  index : ℕ
deriving DecidableEq

/-- A raw input event: activity label and (already parsed) timestamp in
seconds.  Timestamp parsing (`.timestamp()`) is an external collaborator. -/
structure RawEvent where
  activity : String
  timestamp : ℚ
deriving DecidableEq

abbrev RawTrace := List RawEvent

abbrev EventLog := List RawTrace

/-- The `parameters` dictionary; its contents are irrelevant to the claims
(the attribute keys are modelled as fixed). -/
abbrev Params := List (String × String)

/-- The Python sort key `lambda x: (x[timestamp_key], x[index_key])`
compared lexicographically (line 88). -/
def pKeyLE (a b : PEvent) : Prop :=
  a.timestamp < b.timestamp ∨ (a.timestamp = b.timestamp ∧ a.index ≤ b.index)

instance : DecidableRel pKeyLE := fun a b => by
  unfold pKeyLE
  infer_instance

instance : IsTotal PEvent pKeyLE := by
  constructor
  intro a b
  rcases lt_trichotomy a.timestamp b.timestamp with h | h | h
  · exact Or.inl (Or.inl h)
  · rcases Nat.le_total a.index b.index with h2 | h2
    · exact Or.inl (Or.inr ⟨h, h2⟩)
    · exact Or.inr (Or.inr ⟨h.symm, h2⟩)
  · exact Or.inr (Or.inl h)

instance : IsTrans PEvent pKeyLE := by
  constructor
  intro a b c hab hbc
  rcases hab with h1 | ⟨h1, h1i⟩
  · rcases hbc with h2 | ⟨h2, _⟩
    · exact Or.inl (lt_trans h1 h2)
    · exact Or.inl (h2 ▸ h1)
  · rcases hbc with h2 | ⟨h2, h2i⟩
    · exact Or.inl (h1 ▸ h2)
    · exact Or.inr ⟨h1.trans h2, le_trans h1i h2i⟩

/-- The comprehension of lines 85-87: triples
`{activity, timestamp, original index}` for `i in range(len(trace))`. -/
def traceStream (trace : RawTrace) : List PEvent :=
  trace.enum.map (fun p => { activity := p.2.activity, timestamp := p.2.timestamp, index := p.1 })

/-- Line 88: `sorted(trace_stream, key=lambda x: (x[timestamp_key], x[index_key]))`.
Python's `sorted` is a stable sort; since the keys `(timestamp, index)` are
pairwise distinct within a trace (the indices are distinct), the sorted
result is the unique permutation sorted by the lexicographic key, which
insertion sort computes. -/
def traceStreamSorted (trace : RawTrace) : List PEvent :=
  (traceStream trace).insertionSort pKeyLE

/-- Lines 83-89: the local variable `traces_list` of `preprocess_log`. -/
def preprocessTracesList (log : EventLog) : List (List PEvent) :=
  log.map traceStreamSorted

/-- `preprocess_log` (lines 67-89).  The body computes `traces_list` but the
function ends without a `return` statement, so it returns `None`. -/
def preprocess_log (log : EventLog) (parameters : Params) : Option (List (List PEvent)) :=
  let _tl := preprocessTracesList log
  none

/-- One entry of `trace_grouped_list`: for one trace, the list (indexed by
activity index) of the per-activity event lists. -/
abbrev GroupedTrace := List (List PEvent)

/-- `[x[timestamp_key] for x in tr[i]]` (lines 116-117 / 160-161). -/
def tsList (tr : GroupedTrace) (i : ℕ) : List ℚ :=
  (tr.getD i []).map PEvent.timestamp

/-- The inner pointer advance of the two-pointer scans: starting from the
current `aj` suffix, advance `z` while `¬ (t < aj[z])`, i.e. drop the
leading elements that are `≤ t` (lines 123-126 and 167-172). -/
def advance (t : ℚ) (aj : List ℚ) : List ℚ :=
  aj.dropWhile (fun u => decide (u ≤ t))

/-- Lines 120-128 of `get_precede_succeed_matrix`: the two-pointer count.
`k` walks `ai` (the first argument, consumed element by element); `z` is the
shared pointer into `aj`, represented by the remaining suffix, which is never
reset; at each `k` the count grows by the number of not-yet-passed `aj`
elements. -/
def psLoop : List ℚ → List ℚ → ℕ
  | [], _ => 0
  | t :: ts, aj =>
    let aj2 := advance t aj
    aj2.length + psLoop ts aj2

/-- Lines 113-128: the per-pair accumulation of `(count, total)` over all
traces, a trace contributing only when both occurrence lists are non-empty. -/
def psStats (i j : ℕ) : List GroupedTrace → ℕ × ℕ
  | [] => (0, 0)
  | tr :: trs =>
    let rest := psStats i j trs
    let ai := tsList tr i
    let aj := tsList tr j
    if ai ≠ [] ∧ aj ≠ [] then (psLoop ai aj + rest.1, ai.length * aj.length + rest.2) else rest

/-- Lines 129-130: `ret[i, j] = count / total` if `total > 0`, else the cell
keeps its zero initialisation. -/
def psEntry (tgl : List GroupedTrace) (i j : ℕ) : ℚ :=
  let s := psStats i j tgl
  if 0 < s.2 then (s.1 : ℚ) / (s.2 : ℚ) else 0

/-- `get_precede_succeed_matrix` (lines 92-132), as the function giving the
final value of each cell of `ret`: the loops write cell `(i, j)` for `i < j`
once (line 130, guarded by `total > 0`) and cell `(j, i)` once
(line 131, `ret[j, i] = 1.0 - ret[i, j]`); the diagonal and out-of-range
indices keep the zero initialisation of line 110. -/
def get_precede_succeed_matrix (activities : List String) (tgl : List GroupedTrace) :
    ℕ → ℕ → ℚ :=
  fun i j =>
    if i < activities.length ∧ j < activities.length then
      if i < j then psEntry tgl i j
      else if j < i then 1 - psEntry tgl j i
      else 0
    else 0

/-- Lines 164-173 of `get_duration_matrix` (the FIFO scan): `k` walks `ai`
forward; the shared pointer `z` into `aj` skips elements `≤ ai[k]` and, on
the first element `> ai[k]`, records the gap and consumes it. -/
def fifoLoop : List ℚ → List ℚ → List ℚ
  | [], _ => []
  | t :: ts, aj =>
    match advance t aj with
    | [] => fifoLoop ts []
    | u :: us => (u - t) :: fifoLoop ts us

/-- The inner pointer move of the LIFO scan (lines 178-183): walking the
reversed `ai`, drop leading elements with `¬ (ai[k] < aj[z])`, i.e. `≥ u`. -/
def dropGE (u : ℚ) (aiRev : List ℚ) : List ℚ :=
  aiRev.dropWhile (fun t => decide (u ≤ t))

/-- Lines 174-184 of `get_duration_matrix` (the LIFO scan), on the reversed
lists: `z` walks `aj` from the end (first argument `u :: us` is the reversed
suffix of `aj`), and the shared pointer `k` walks `ai` from the end, skipping
elements `≥ aj[z]` and consuming the first element `< aj[z]`, recording the
gap. -/
def lifoLoop : List ℚ → List ℚ → List ℚ
  | _, [] => []
  | aiRev, u :: us =>
    match dropGE u aiRev with
    | [] => lifoLoop [] us
    | t :: ts => (u - t) :: lifoLoop ts us

/-- The LIFO gap samples contributed by one trace with occurrence lists
`ai`, `aj` (in increasing index order, as stored): the scan of lines 174-184
starts from `k = len(ai) - 1`, `z = len(aj) - 1`, i.e. runs on the reversed
lists. -/
def lifoTrace (ai aj : List ℚ) : List ℚ :=
  lifoLoop ai.reverse aj.reverse

/-- The list `times0` accumulated over all traces (lines 157-173). -/
def fifoSamples (tgl : List GroupedTrace) (i j : ℕ) : List ℚ :=
  (tgl.map (fun tr =>
    let ai := tsList tr i
    let aj := tsList tr j
    if ai ≠ [] ∧ aj ≠ [] then fifoLoop ai aj else [])).flatten

/-- The list `times1` accumulated over all traces (lines 157-162, 174-184). -/
def lifoSamples (tgl : List GroupedTrace) (i j : ℕ) : List ℚ :=
  (tgl.map (fun tr =>
    let ai := tsList tr i
    let aj := tsList tr j
    if ai ≠ [] ∧ aj ≠ [] then lifoTrace ai aj else [])).flatten

/-- `statistics.mean` of a sample list, with the code's `if times else 0`
guard (lines 185-186). -/
def meanOrZero (l : List ℚ) : ℚ :=
  if l = [] then 0 else l.sum / (l.length : ℚ)

/-- `get_duration_matrix` (lines 135-188), as the function giving the final
value of each cell: for `i ≠ j` in range, `ret[i, j] = min(times0, times1)`
(line 187) with the empty-list-to-0 aggregation of lines 185-186; the
diagonal (guard `not i == j`, line 156) and out-of-range cells keep the zero
initialisation of line 153. -/
def get_duration_matrix (activities : List String) (tgl : List GroupedTrace) :
    ℕ → ℕ → ℚ :=
  fun i j =>
    if i < activities.length ∧ j < activities.length ∧ ¬ i = j then
      min (meanOrZero (fifoSamples tgl i j)) (meanOrZero (lifoSamples tgl i j))
    else 0

/-! ## Spec-side definitions for the refinement claims -/

/-- The naive quantity the two-pointer merge is claimed to compute: the
number of ordered pairs (occurrence of `i`, occurrence of `j`) whose
`i`-timestamp is strictly earlier than the `j`-timestamp. -/
def naivePairCount (ai aj : List ℚ) : ℕ :=
  (ai.map (fun t => (aj.filter (fun u => decide (t < u))).length)).sum

/-- The strictly-earlier pair count accumulated over the traces where both
occurrence lists are non-empty. -/
def naiveCount (tgl : List GroupedTrace) (i j : ℕ) : ℕ :=
  (tgl.map (fun tr =>
    if tsList tr i ≠ [] ∧ tsList tr j ≠ [] then naivePairCount (tsList tr i) (tsList tr j)
    else 0)).sum

/-- `|ai| * |aj|` summed over the traces where both lists are non-empty. -/
def pairTotal (tgl : List GroupedTrace) (i j : ℕ) : ℕ :=
  (tgl.map (fun tr =>
    if tsList tr i ≠ [] ∧ tsList tr j ≠ [] then (tsList tr i).length * (tsList tr j).length
    else 0)).sum

/-- Spec-side primitive for the LIFO description: the latest (rightmost)
element of the list that is strictly greater than `t`, together with the
list with that element removed. -/
def extractLatestAfter (t : ℚ) : List ℚ → Option (ℚ × List ℚ)
  | [] => none
  | u :: us =>
    match extractLatestAfter t us with
    | some p => some (p.1, u :: p.2)
    | none => if t < u then some (u, us) else none

/-- The LIFO matching as the spec words it: scan the `i`-occurrences in
decreasing time order (first argument: `ai` reversed) and, for each one,
consume the latest not-yet-consumed `j`-occurrence with a strictly greater
timestamp, recording the gap (second argument: the remaining `aj`, kept in
increasing order). -/
def lifoSpecScan : List ℚ → List ℚ → List ℚ
  | [], _ => []
  | t :: ts, aj =>
    match extractLatestAfter t aj with
    | none => lifoSpecScan ts aj
    | some p => (p.1 - t) :: lifoSpecScan ts p.2

/-! ## The `apply` entry point (lines 22-64)

`apply` reads the name `traces_list` at line 50.  At that point the names
assigned in `apply`'s local scope are `log`, `parameters`, `activity_key`
and `timestamp_key`; Python then falls back to the module's global scope
(the imported names, the `Parameters` class, `DEFAULT_INDEX_KEY` and the
four function names) and to the builtins, none of which bind `traces_list`
(`preprocess_log` is never called by `apply`, and its `traces_list` is a
local that it anyway never returns).  CPython therefore raises `NameError`
when line 50 executes. -/

/-- A raised Python exception, as far as the claims need it. -/
inductive PyError where
  | nameError : String → PyError
deriving DecidableEq

/-- The names bound in the module's global scope of `trace_based.py`
(imports of lines 1-9, the class of line 12, the constant of line 19 and
the four `def`s). -/
def moduleGlobalNames : List String :=
  ["exec_utils", "Enum", "constants", "xes_constants", "converter", "cm_util",
   "mean", "np", "Counter", "pd", "Parameters", "DEFAULT_INDEX_KEY",
   "apply", "preprocess_log", "get_precede_succeed_matrix", "get_duration_matrix"]

/-- The names assigned in `apply`'s local scope before line 50 executes
(parameters of line 22, assignments of lines 41-47). -/
def applyLocalNames : List String :=
  ["log", "parameters", "activity_key", "timestamp_key"]

/-- `Counter([y[activity_key] for x in traces_list for y in x])` flattened
into the underlying multiset of activity labels (line 50). -/
def allActivities (tracesList : List (List PEvent)) : List String :=
  (tracesList.map (fun tr => tr.map PEvent.activity)).flatten

/-- The per-activity occurrence count read off `activities_counter`. -/
def activitiesCounter (tracesList : List (List PEvent)) (a : String) : ℕ :=
  (allActivities tracesList).count a

/-- Line 51: `sorted(list(activities_counter))`, the sorted list of the
distinct activity labels. -/
def activitiesOf (tracesList : List (List PEvent)) : List String :=
  ((allActivities tracesList).dedup).insertionSort (· ≤ ·)

/-- Lines 54-57: group one trace by activity, over the global alphabet. -/
def groupTrace (activities : List String) (trace : List PEvent) : GroupedTrace :=
  activities.map (fun act => trace.filter (fun x => decide (x.activity = act)))

/-- Lines 52-58: `trace_grouped_list`. -/
def traceGroupedList (activities : List String) (tracesList : List (List PEvent)) :
    List GroupedTrace :=
  tracesList.map (groupTrace activities)

/-- A directly-follows graph: a mapping from (source label, target label)
to a non-negative number, modelled as an association list. -/
abbrev Dfg := List ((String × String) × ℚ)

/-- Modelled from the spec: `cm_util.get_c_matrix` is code of this
repository that is not under `src/`.  Spec §3 describes the causality
matrix only as "combining PS matrix, duration matrix, and per-activity
occurrence counts" and §9 leaves the exact formula open; §4.5 thresholds
the PS evidence, so the model passes the PS evidence through. -/
def get_c_matrix (PS _duration : ℕ → ℕ → ℚ) (_activities : List String)
    (_counter : String → ℕ) : ℕ → ℕ → ℚ :=
  PS

/-- The internal confidence threshold of spec §4.5 (exact value is an
internal policy; any fixed value works for the claims). -/
def confidenceThreshold : ℚ := 1 / 2

/-- Spec §4.5: an edge `i → j` is proposed only when the causality evidence
exceeds the confidence threshold. -/
def proposedB (C : ℕ → ℕ → ℚ) (i j : ℕ) : Bool :=
  decide (confidenceThreshold < C i j)

/-- The proposed out-neighbours of `i`. -/
def outsOf (C : ℕ → ℕ → ℚ) (n i : ℕ) : List ℕ :=
  (List.range n).filter (fun j => proposedB C i j)

/-- The proposed in-neighbours of `j`. -/
def insOf (C : ℕ → ℕ → ℚ) (n j : ℕ) : List ℕ :=
  (List.range n).filter (fun i => proposedB C i j)

/-- The label of activity index `i`. -/
def actLabel (activities : List String) (i : ℕ) : String :=
  activities.getD i ""

/-- Modelled from the spec: the weight the resolver assigns to a proposed
edge.  Spec §9 leaves the LP objective open; the model splits each
activity's occurrence count evenly over its proposed out-edges and
in-edges and takes the binding constraint, which satisfies §4.5's flow
conservation by construction. -/
def edgeWeight (C : ℕ → ℕ → ℚ) (n : ℕ) (counter : String → ℕ)
    (activities : List String) (i j : ℕ) : ℚ :=
  min ((counter (actLabel activities i) : ℚ) / ((outsOf C n i).length : ℚ))
      ((counter (actLabel activities j) : ℚ) / ((insOf C n j).length : ℚ))

/-- The retained out-neighbours of `i`: proposed edges whose resolved
weight is non-zero (spec §4.5: "edges with zero resolved frequency are
dropped from both graphs"). -/
def retainedOf (C : ℕ → ℕ → ℚ) (n : ℕ) (counter : String → ℕ)
    (activities : List String) (i : ℕ) : List ℕ :=
  (outsOf C n i).filter
    (fun j => decide (edgeWeight C n counter activities i j ≠ 0))

/-- The Frequency DFG assembled from the retained edges and their resolved
weights, translated back to activity labels. -/
def freqEdges (C : ℕ → ℕ → ℚ) (activities : List String) (counter : String → ℕ) : Dfg :=
  (List.range activities.length).flatMap (fun i =>
    (retainedOf C activities.length counter activities i).map (fun j =>
      ((actLabel activities i, actLabel activities j),
       edgeWeight C activities.length counter activities i j)))

/-- The Performance DFG: `Duration[i][j]` on each retained edge. -/
def perfEdges (C duration : ℕ → ℕ → ℚ) (activities : List String)
    (counter : String → ℕ) : Dfg :=
  (List.range activities.length).flatMap (fun i =>
    (retainedOf C activities.length counter activities i).map (fun j =>
      ((actLabel activities i, actLabel activities j), duration i j)))

/-- Modelled from the spec: `cm_util.resolve_LP` is code of this repository
that is not under `src/`.  Spec §4.5: propose edges where the evidence
exceeds the confidence threshold, assign flow-conserving weights, drop
zero-frequency edges, and carry `Duration[i][j]` on each retained edge in
the Performance DFG. -/
def resolve_LP (C duration : ℕ → ℕ → ℚ) (activities : List String)
    (counter : String → ℕ) : Dfg × Dfg :=
  (freqEdges C activities counter, perfEdges C duration activities counter)

/-- The continuation of `apply` from line 50 on, as it would run with
`traces_list` bound (lines 50-64): count and sort activities, group the
traces, build the two matrices, and resolve them into the two DFGs. -/
def applyWithTraces (tracesList : List (List PEvent)) : Dfg × Dfg :=
  let counter := activitiesCounter tracesList
  let activities := activitiesOf tracesList
  let tgl := traceGroupedList activities tracesList
  let PS := get_precede_succeed_matrix activities tgl
  let dur := get_duration_matrix activities tgl
  let C := get_c_matrix PS dur activities counter
  resolve_LP C dur activities counter

/-- `apply` (lines 22-64).  The guard models the name lookup of
`traces_list` at line 50: the name is bound neither in `apply`'s local
scope nor in the module's globals (nor in the builtins), so the lookup
fails and a `NameError` is raised.  The `then` branch is the continuation
the body would run had the name been bound to the preprocessed traces (the
evident intent, `preprocess_log`'s local of the same name); it is provably
unreachable. -/
def apply (log : EventLog) (parameters : Params) : Except PyError (Dfg × Dfg) :=
  if "traces_list" ∈ applyLocalNames ∨ "traces_list" ∈ moduleGlobalNames then
    Except.ok (applyWithTraces (preprocessTracesList log))
  else
    Except.error (PyError.nameError "traces_list")

/-- The total occurrence count of activity `a` in the raw log. -/
def occInLog (log : EventLog) (a : String) : ℕ :=
  ((log.map (fun tr => tr.map RawEvent.activity)).flatten).count a

/-- The summed weight of the edges of a DFG outgoing from label `a`. -/
def outWeight (g : Dfg) (a : String) : ℚ :=
  ((g.filter (fun e => decide (e.1.1 = a))).map Prod.snd).sum

/-- The summed weight of the edges of a DFG incoming to label `a`. -/
def inWeight (g : Dfg) (a : String) : ℚ :=
  ((g.filter (fun e => decide (e.1.2 = a))).map Prod.snd).sum

/-! ## Theorems -/

/-- C2: for every input log and every parameter dictionary, `apply` raises
a `NameError` before constructing any matrix, because it reads the name
`traces_list` (line 50), which is bound neither in its local scope nor in
the module's globals; hence `apply` never returns the pair of DFGs. -/
theorem apply_raises_nameError (log : EventLog) (parameters : Params) :
    apply log parameters = Except.error (PyError.nameError "traces_list") := by
  have h : ¬ ("traces_list" ∈ applyLocalNames ∨ "traces_list" ∈ moduleGlobalNames) := by
    decide
  simp only [apply, if_neg h]

/-- C1 (code bug): on a log with zero cases, `apply` as written raises
`NameError` instead of returning two empty mappings; its own continuation
past the unbound reference (lines 50-64, with the resolver modelled from
the spec) does return two empty mappings on the empty log, as the spec
states. -/
theorem apply_empty_log_behavior :
    apply [] [] = Except.error (PyError.nameError "traces_list") ∧
    applyWithTraces (preprocessTracesList []) = ([], []) := by
  constructor
  · have h : ¬ ("traces_list" ∈ applyLocalNames ∨ "traces_list" ∈ moduleGlobalNames) := by
      decide
    simp only [apply, if_neg h]
  · rfl

/-- C5: for distinct in-range activity indices `i`, `j`, the duration
matrix entry is the minimum of the arithmetic means of the FIFO and LIFO
gap-sample lists, an empty sample list aggregating to `0`; and every
diagonal entry is `0`. -/
theorem duration_entry_spec (activities : List String) (tgl : List GroupedTrace) (i j : ℕ)
    (hi : i < activities.length) (hj : j < activities.length) (hij : i ≠ j) :
    get_duration_matrix activities tgl i j =
      min (if fifoSamples tgl i j = [] then 0
           else (fifoSamples tgl i j).sum / ((fifoSamples tgl i j).length : ℚ))
          (if lifoSamples tgl i j = [] then 0
           else (lifoSamples tgl i j).sum / ((lifoSamples tgl i j).length : ℚ)) ∧
    ∀ k : ℕ, get_duration_matrix activities tgl k k = 0 := by
  constructor
  · simp [get_duration_matrix, hi, hj, hij, meanOrZero]
  · intro k
    simp [get_duration_matrix]

/-- Witness for C5 at a concrete input (Scenario B of the spec, one trace
`A@0, B@1, A@2, B@3`): both means are `1`, so the entry is `1`. -/
theorem duration_entry_spec_witness :
    ((0:ℕ) < (["A", "B"] : List String).length ∧
     (1:ℕ) < (["A", "B"] : List String).length ∧ (0:ℕ) ≠ 1) ∧
    get_duration_matrix ["A", "B"]
      [[[⟨"A", 0, 0⟩, ⟨"A", 2, 2⟩], [⟨"B", 1, 1⟩, ⟨"B", 3, 3⟩]]] 0 1 = 1 := by
  refine ⟨by decide, ?_⟩
  have h := (duration_entry_spec ["A", "B"]
    [[[⟨"A", 0, 0⟩, ⟨"A", 2, 2⟩], [⟨"B", 1, 1⟩, ⟨"B", 3, 3⟩]]] 0 1
    (by decide) (by decide) (by decide)).1
  have hf : fifoSamples [[[⟨"A", 0, 0⟩, ⟨"A", 2, 2⟩], [⟨"B", 1, 1⟩, ⟨"B", 3, 3⟩]]] 0 1
      = [1, 1] := by
    norm_num [fifoSamples, tsList, fifoLoop, advance, List.cons_ne_nil]
  have hl : lifoSamples [[[⟨"A", 0, 0⟩, ⟨"A", 2, 2⟩], [⟨"B", 1, 1⟩, ⟨"B", 3, 3⟩]]] 0 1
      = [1, 1] := by
    norm_num [lifoSamples, tsList, lifoTrace, lifoLoop, dropGE, List.cons_ne_nil]
  rw [h, hf, hl]
  norm_num [List.cons_ne_nil]

/-- Helper: a pair `(i, j)` none of whose traces has both occurrence lists
non-empty accumulates the statistics `(0, 0)`. -/
theorem psStats_of_never_both (i j : ℕ) (tgl : List GroupedTrace)
    (h : ∀ tr ∈ tgl, tsList tr i = [] ∨ tsList tr j = []) :
    psStats i j tgl = (0, 0) := by
  induction tgl with
  | nil => rfl
  | cons tr trs ih =>
    have htr := h tr (List.mem_cons_self tr trs)
    have hguard : ¬ (tsList tr i ≠ [] ∧ tsList tr j ≠ []) := by
      rcases htr with h1 | h1 <;> simp [h1]
    have hrest := ih (fun tr' htr' => h tr' (List.mem_cons_of_mem tr htr'))
    simp [psStats, hguard, hrest]

/-- C7: for `i < j` in range such that no trace has both occurrence lists
non-empty, the PS matrix holds the fixed default `PS[i][j] = 0`,
`PS[j][i] = 1`. -/
theorem ps_default_pair (activities : List String) (tgl : List GroupedTrace) (i j : ℕ)
    (hij : i < j) (hj : j < activities.length)
    (h : ∀ tr ∈ tgl, tsList tr i = [] ∨ tsList tr j = []) :
    get_precede_succeed_matrix activities tgl i j = 0 ∧
    get_precede_succeed_matrix activities tgl j i = 1 := by
  have hi : i < activities.length := lt_trans hij hj
  have hstats := psStats_of_never_both i j tgl h
  have hentry : psEntry tgl i j = 0 := by simp [psEntry, hstats]
  have hnot : ¬ j < i := not_lt_of_gt hij
  constructor
  · simp [get_precede_succeed_matrix, hi, hj, hij, hentry]
  · simp [get_precede_succeed_matrix, hi, hj, hij, hnot, hentry]

/-- Witness for C7: two activities that never co-occur (each in its own
trace). -/
theorem ps_default_pair_witness :
    ((0:ℕ) < 1 ∧ (1:ℕ) < (["A", "B"] : List String).length ∧
     (∀ tr ∈ [[[(⟨"A", 0, 0⟩ : PEvent)], []], [[], [(⟨"B", 1, 0⟩ : PEvent)]]],
        tsList tr 0 = [] ∨ tsList tr 1 = [])) ∧
    get_precede_succeed_matrix ["A", "B"]
      [[[⟨"A", 0, 0⟩], []], [[], [⟨"B", 1, 0⟩]]] 0 1 = 0 ∧
    get_precede_succeed_matrix ["A", "B"]
      [[[⟨"A", 0, 0⟩], []], [[], [⟨"B", 1, 0⟩]]] 1 0 = 1 := by
  refine ⟨by decide, ?_⟩
  exact ps_default_pair ["A", "B"] [[[⟨"A", 0, 0⟩], []], [[], [⟨"B", 1, 0⟩]]] 0 1
    (by decide) (by decide) (by decide)

/-- C8: on every input, the PS matrix satisfies
`PS[i][j] + PS[j][i] = 1` for all distinct in-range `i`, `j` (exactly over
`ℚ`), and `PS[i][i] = 0` on the diagonal. -/
theorem ps_complement (activities : List String) (tgl : List GroupedTrace) :
    (∀ i j, i < activities.length → j < activities.length → i ≠ j →
      get_precede_succeed_matrix activities tgl i j +
        get_precede_succeed_matrix activities tgl j i = 1) ∧
    (∀ i, get_precede_succeed_matrix activities tgl i i = 0) := by
  constructor
  · intro i j hi hj hne
    rcases lt_or_gt_of_ne hne with h | h
    · have hnot : ¬ j < i := not_lt_of_gt h
      simp [get_precede_succeed_matrix, hi, hj, h, hnot]
    · have hnot : ¬ i < j := not_lt_of_gt h
      simp [get_precede_succeed_matrix, hi, hj, h, hnot]
  · intro i
    simp [get_precede_succeed_matrix]

/-- Witness for C8 at a concrete input (one trace `A@0, B@1`). -/
theorem ps_complement_witness :
    ((0:ℕ) < (["A", "B"] : List String).length ∧
     (1:ℕ) < (["A", "B"] : List String).length ∧ (0:ℕ) ≠ 1) ∧
    get_precede_succeed_matrix ["A", "B"] [[[⟨"A", 0, 0⟩], [⟨"B", 1, 1⟩]]] 0 1 +
      get_precede_succeed_matrix ["A", "B"] [[[⟨"A", 0, 0⟩], [⟨"B", 1, 1⟩]]] 1 0 = 1 := by
  refine ⟨by decide, ?_⟩
  exact (ps_complement ["A", "B"] [[[⟨"A", 0, 0⟩], [⟨"B", 1, 1⟩]]]).1 0 1
    (by decide) (by decide) (by decide)

/-- Helper: on a non-decreasingly sorted list, the monotone pointer advance
(skip elements `≤ t`) lands exactly on the elements strictly greater than
`t`. -/
theorem advance_of_sorted (t : ℚ) (aj : List ℚ) (h : List.Sorted (· ≤ ·) aj) :
    advance t aj = aj.filter (fun u => decide (t < u)) := by
  induction aj with
  | nil => rfl
  | cons u us ih =>
    rw [List.sorted_cons] at h
    by_cases hu : u ≤ t
    · have hnt : ¬ t < u := not_lt.mpr hu
      simpa [advance, List.dropWhile_cons, hu, hnt] using ih h.2
    · have htu : t < u := lt_of_not_ge hu
      have hall : ∀ x ∈ us, t < x := fun x hx => lt_of_lt_of_le htu (h.1 x hx)
      have hfil : us.filter (fun u => decide (t < u)) = us :=
        List.filter_eq_self.mpr (fun a ha => by simpa using hall a ha)
      simp [advance, List.dropWhile_cons, hu, htu, hfil]

/-- Helper: pre-filtering by a smaller threshold does not change the
per-element strictly-after counts of the naive quantity. -/
theorem naivePairCount_filter (t : ℚ) (ts aj : List ℚ) (hts : ∀ x ∈ ts, t ≤ x) :
    naivePairCount ts (aj.filter (fun u => decide (t < u))) = naivePairCount ts aj := by
  unfold naivePairCount
  congr 1
  apply List.map_congr_left
  intro x hx
  rw [List.filter_filter]
  congr 1
  apply List.filter_congr
  intro u _
  by_cases h : x < u
  · have h2 : t < u := lt_of_le_of_lt (hts x hx) h
    simp [h, h2]
  · simp [h]

/-- Helper: on sorted occurrence lists, the two-pointer merge of
lines 120-128 computes exactly the naive strictly-earlier pair count. -/
theorem psLoop_eq_naive (ai : List ℚ) (hai : List.Sorted (· ≤ ·) ai) :
    ∀ aj : List ℚ, List.Sorted (· ≤ ·) aj → psLoop ai aj = naivePairCount ai aj := by
  induction ai with
  | nil => intro aj _; rfl
  | cons t ts ih =>
    intro aj haj
    rw [List.sorted_cons] at hai
    have hadv := advance_of_sorted t aj haj
    have hsortF : List.Sorted (· ≤ ·) (aj.filter (fun u => decide (t < u))) :=
      haj.filter _
    have ihF := ih hai.2 _ hsortF
    have hrw : psLoop (t :: ts) aj =
        (aj.filter (fun u => decide (t < u))).length +
          psLoop ts (aj.filter (fun u => decide (t < u))) := by
      rw [psLoop, hadv]
    rw [hrw, ihF, naivePairCount_filter t ts aj hai.1]
    rfl

/-- Helper: when every occurrence list is sorted, the accumulated
statistics equal the naive count and total. -/
theorem psStats_eq_naive (i j : ℕ) (tgl : List GroupedTrace)
    (hs : ∀ tr ∈ tgl, List.Sorted (· ≤ ·) (tsList tr i) ∧ List.Sorted (· ≤ ·) (tsList tr j)) :
    psStats i j tgl = (naiveCount tgl i j, pairTotal tgl i j) := by
  induction tgl with
  | nil => rfl
  | cons tr trs ih =>
    have htr := hs tr (List.mem_cons_self tr trs)
    have ihr := ih (fun tr' h' => hs tr' (List.mem_cons_of_mem tr h'))
    by_cases hg : tsList tr i ≠ [] ∧ tsList tr j ≠ []
    · simp [psStats, hg, ihr, naiveCount, pairTotal, psLoop_eq_naive _ htr.1 _ htr.2]
    · simp [psStats, hg, ihr, naiveCount, pairTotal]

/-- C4: for `i < j` in range with per-trace sorted occurrence lists and a
positive total, the PS entry computed by the two-pointer merge equals the
naive quantity: the number of strictly-earlier ordered occurrence pairs
(over traces where both lists are non-empty) divided by the sum of
`|ai| * |aj|` over those traces. -/
theorem ps_matrix_eq_naive (activities : List String) (tgl : List GroupedTrace) (i j : ℕ)
    (hij : i < j) (hj : j < activities.length)
    (hs : ∀ tr ∈ tgl, List.Sorted (· ≤ ·) (tsList tr i) ∧ List.Sorted (· ≤ ·) (tsList tr j))
    (hpos : 0 < pairTotal tgl i j) :
    get_precede_succeed_matrix activities tgl i j =
      (naiveCount tgl i j : ℚ) / (pairTotal tgl i j : ℚ) := by
  have hi : i < activities.length := lt_trans hij hj
  have hstats := psStats_eq_naive i j tgl hs
  simp [get_precede_succeed_matrix, hi, hj, hij, psEntry, hstats, hpos]

/-- Witness for C4: two traces, `A@0 B@1 B@2` and `A@5 B@3`; three of the
four co-occurring pairs have the `A`-occurrence strictly earlier, but in
the second trace `B@3` precedes `A@5`, so `PS[A][B] = 2/3`. -/
theorem ps_matrix_eq_naive_witness :
    ((0:ℕ) < 1 ∧ (1:ℕ) < (["A", "B"] : List String).length ∧
      0 < pairTotal [[[(⟨"A", 0, 0⟩ : PEvent)], [⟨"B", 1, 1⟩, ⟨"B", 2, 2⟩]],
        [[⟨"A", 5, 1⟩], [⟨"B", 3, 0⟩]]] 0 1) ∧
    get_precede_succeed_matrix ["A", "B"]
      [[[⟨"A", 0, 0⟩], [⟨"B", 1, 1⟩, ⟨"B", 2, 2⟩]], [[⟨"A", 5, 1⟩], [⟨"B", 3, 0⟩]]] 0 1 =
      (naiveCount [[[⟨"A", 0, 0⟩], [⟨"B", 1, 1⟩, ⟨"B", 2, 2⟩]],
        [[⟨"A", 5, 1⟩], [⟨"B", 3, 0⟩]]] 0 1 : ℚ) /
      (pairTotal [[[⟨"A", 0, 0⟩], [⟨"B", 1, 1⟩, ⟨"B", 2, 2⟩]],
        [[⟨"A", 5, 1⟩], [⟨"B", 3, 0⟩]]] 0 1 : ℚ) := by
  refine ⟨⟨by decide, by decide, by decide⟩, ?_⟩
  apply ps_matrix_eq_naive ["A", "B"]
    [[[⟨"A", 0, 0⟩], [⟨"B", 1, 1⟩, ⟨"B", 2, 2⟩]], [[⟨"A", 5, 1⟩], [⟨"B", 3, 0⟩]]] 0 1
    (by decide) (by decide) ?_ (by decide)
  intro tr htr
  rcases List.mem_cons.mp htr with rfl | h
  · constructor <;> norm_num [tsList, List.sorted_cons]
  · rcases List.mem_singleton.mp h with rfl
    constructor <;> norm_num [tsList, List.sorted_cons]

/-- Helper: the two-pointer count is zero against an exhausted `aj`. -/
theorem psLoop_nil_right (ai : List ℚ) : psLoop ai [] = 0 := by
  induction ai with
  | nil => rfl
  | cons t ts ih => simpa [psLoop, advance] using ih

/-- Helper: the two-pointer count never exceeds `|ai| * |aj|`. -/
theorem psLoop_le (ai : List ℚ) : ∀ aj : List ℚ, psLoop ai aj ≤ ai.length * aj.length := by
  induction ai with
  | nil => intro aj; simp [psLoop]
  | cons t ts ih =>
    intro aj
    have h1 : (advance t aj).length ≤ aj.length :=
      (List.dropWhile_sublist _).length_le
    have h2 : psLoop ts (advance t aj) ≤ ts.length * (advance t aj).length := ih _
    have h3 : ts.length * (advance t aj).length ≤ ts.length * aj.length :=
      Nat.mul_le_mul_left _ h1
    have : psLoop (t :: ts) aj = (advance t aj).length + psLoop ts (advance t aj) := rfl
    rw [this]
    calc (advance t aj).length + psLoop ts (advance t aj)
        ≤ aj.length + ts.length * aj.length := Nat.add_le_add h1 (le_trans h2 h3)
      _ = (t :: ts).length * aj.length := by simp [List.length_cons]; ring

/-- Helper: the accumulated count never exceeds the accumulated total. -/
theorem psStats_fst_le (i j : ℕ) (tgl : List GroupedTrace) :
    (psStats i j tgl).1 ≤ (psStats i j tgl).2 := by
  induction tgl with
  | nil => exact le_refl 0
  | cons tr trs ih =>
    by_cases hg : tsList tr i ≠ [] ∧ tsList tr j ≠ []
    · simpa [psStats, hg] using Nat.add_le_add (psLoop_le _ _) ih
    · simpa [psStats, hg] using ih

/-- Helper: the statistics of a concatenation add up componentwise. -/
theorem psStats_append (i j : ℕ) (l1 l2 : List GroupedTrace) :
    psStats i j (l1 ++ l2) =
      ((psStats i j l1).1 + (psStats i j l2).1, (psStats i j l1).2 + (psStats i j l2).2) := by
  induction l1 with
  | nil => simp [psStats]
  | cons tr trs ih =>
    by_cases hg : tsList tr i ≠ [] ∧ tsList tr j ≠ [] <;>
      simp [psStats, hg, ih, Nat.add_assoc]

/-- Helper: when every `ai` element is strictly before every `aj` element,
the two-pointer count is the full `|ai| * |aj|`. -/
theorem psLoop_all_lt (ai aj : List ℚ) (h : ∀ a ∈ ai, ∀ b ∈ aj, a < b) :
    psLoop ai aj = ai.length * aj.length := by
  induction ai with
  | nil => simp [psLoop]
  | cons t ts ih =>
    have hadv : advance t aj = aj := by
      cases aj with
      | nil => rfl
      | cons u us =>
        have hu : t < u := h t (List.mem_cons_self t ts) u (List.mem_cons_self u us)
        simp [advance, List.dropWhile_cons, not_le.mpr hu]
    have hrw : psLoop (t :: ts) aj = (advance t aj).length + psLoop ts (advance t aj) := rfl
    rw [hrw, hadv, ih (fun a ha => h a (List.mem_cons_of_mem t ha))]
    simp [List.length_cons]
    ring

/-- Helper: when every `aj` element is strictly before every `ai` element,
the two-pointer count is zero. -/
theorem psLoop_all_gt (ai aj : List ℚ) (h : ∀ a ∈ ai, ∀ b ∈ aj, b < a) :
    psLoop ai aj = 0 := by
  induction ai with
  | nil => rfl
  | cons t ts ih =>
    have hadv : advance t aj = [] := by
      apply List.dropWhile_eq_nil_iff.mpr
      intro x hx
      exact decide_eq_true (le_of_lt (h t (List.mem_cons_self t ts) x hx))
    have hrw : psLoop (t :: ts) aj = (advance t aj).length + psLoop ts (advance t aj) := rfl
    rw [hrw, hadv]
    simpa using psLoop_nil_right ts

/-- Helper: appending one trace whose pair contribution is saturated
(`count' = total' > 0`) cannot decrease the PS entry. -/
theorem psEntry_append_of_saturated (tgl : List GroupedTrace) (tr : GroupedTrace) (i j : ℕ)
    (hc : psLoop (tsList tr i) (tsList tr j) = (tsList tr i).length * (tsList tr j).length)
    (h1 : tsList tr i ≠ []) (h2 : tsList tr j ≠ []) :
    psEntry tgl i j ≤ psEntry (tgl ++ [tr]) i j := by
  have hd : 0 < (tsList tr i).length * (tsList tr j).length :=
    Nat.mul_pos (List.length_pos.mpr h1) (List.length_pos.mpr h2)
  have hone : psStats i j [tr] =
      ((tsList tr i).length * (tsList tr j).length,
       (tsList tr i).length * (tsList tr j).length) := by
    simp [psStats, h1, h2, hc]
  have happ := psStats_append i j tgl [tr]
  rw [hone] at happ
  set c := (psStats i j tgl).1 with hc1
  set t := (psStats i j tgl).2 with ht1
  set d := (tsList tr i).length * (tsList tr j).length with hd1
  have hct : c ≤ t := psStats_fst_le i j tgl
  rw [psEntry, psEntry, happ]
  by_cases ht : 0 < t
  · have htd : 0 < t + d := Nat.lt_of_lt_of_le ht (Nat.le_add_right t d)
    rw [if_pos ht, if_pos htd]
    have ht' : (0:ℚ) < t := by exact_mod_cast ht
    have htd' : (0:ℚ) < (t:ℚ) + d := by
      have hd' : (0:ℚ) ≤ d := by positivity
      linarith
    have hc' : (c:ℚ) ≤ t := by exact_mod_cast hct
    have hdq : (0:ℚ) < d := by exact_mod_cast hd
    push_cast
    rw [div_le_div_iff₀ ht' htd']
    nlinarith
  · have ht0 : t = 0 := Nat.eq_zero_of_not_pos ht
    have hc0 : c = 0 := by omega
    have htd : 0 < t + d := by omega
    rw [if_neg ht, if_pos htd, hc0, ht0]
    have hdq : (0:ℚ) < d := by exact_mod_cast hd
    push_cast
    positivity

/-- Helper: appending one trace whose pair contribution is
`count' = 0 < total'` cannot increase the PS entry. -/
theorem psEntry_append_of_empty (tgl : List GroupedTrace) (tr : GroupedTrace) (i j : ℕ)
    (hc : psLoop (tsList tr i) (tsList tr j) = 0)
    (h1 : tsList tr i ≠ []) (h2 : tsList tr j ≠ []) :
    psEntry (tgl ++ [tr]) i j ≤ psEntry tgl i j := by
  have hd : 0 < (tsList tr i).length * (tsList tr j).length :=
    Nat.mul_pos (List.length_pos.mpr h1) (List.length_pos.mpr h2)
  have hone : psStats i j [tr] = (0, (tsList tr i).length * (tsList tr j).length) := by
    simp [psStats, h1, h2, hc]
  have happ := psStats_append i j tgl [tr]
  rw [hone] at happ
  set c := (psStats i j tgl).1 with hc1
  set t := (psStats i j tgl).2 with ht1
  set d := (tsList tr i).length * (tsList tr j).length with hd1
  rw [psEntry, psEntry, happ]
  by_cases ht : 0 < t
  · have htd : 0 < t + d := Nat.lt_of_lt_of_le ht (Nat.le_add_right t d)
    rw [if_pos ht, if_pos htd]
    have ht' : (0:ℚ) < t := by exact_mod_cast ht
    have hdq : (0:ℚ) < d := by exact_mod_cast hd
    have htd' : (0:ℚ) < (t:ℚ) + d := by linarith
    push_cast
    rw [div_le_div_iff₀ htd' ht']
    nlinarith [Nat.cast_nonneg (α := ℚ) c]
  · have ht0 : t = 0 := Nat.eq_zero_of_not_pos ht
    have hc0 : c = 0 := by
      have := psStats_fst_le i j tgl
      omega
    have htd : 0 < t + d := by omega
    rw [if_neg ht, if_pos htd, hc0]
    simp

/-- C9: appending one trace in which `i` and `j` both occur and every
`i`-occurrence is strictly earlier than every `j`-occurrence cannot
decrease `PS[i][j]`, for any distinct in-range pair. -/
theorem ps_matrix_monotone (activities : List String) (tgl : List GroupedTrace)
    (tr : GroupedTrace) (i j : ℕ)
    (hi : i < activities.length) (hj : j < activities.length) (hne : i ≠ j)
    (h1 : tsList tr i ≠ []) (h2 : tsList tr j ≠ [])
    (hlt : ∀ a ∈ tsList tr i, ∀ b ∈ tsList tr j, a < b) :
    get_precede_succeed_matrix activities tgl i j ≤
      get_precede_succeed_matrix activities (tgl ++ [tr]) i j := by
  rcases lt_or_gt_of_ne hne with hij | hij
  · have hsat := psLoop_all_lt (tsList tr i) (tsList tr j) hlt
    have hmono := psEntry_append_of_saturated tgl tr i j hsat h1 h2
    simpa [get_precede_succeed_matrix, hi, hj, hij] using hmono
  · have hzero : psLoop (tsList tr j) (tsList tr i) = 0 :=
      psLoop_all_gt _ _ (fun a ha b hb => hlt b hb a ha)
    have hanti := psEntry_append_of_empty tgl tr j i hzero h2 h1
    have hnot : ¬ i < j := not_lt_of_gt hij
    simpa [get_precede_succeed_matrix, hi, hj, hij, hnot] using sub_le_sub_left hanti 1

/-- Witness for C9: starting from a log with one reversed trace
(`B@0, A@1`), appending the trace `A@0, B@1` raises `PS[A][B]` from `0`
to `1/2`. -/
theorem ps_matrix_monotone_witness :
    ((0:ℕ) < (["A", "B"] : List String).length ∧
     (1:ℕ) < (["A", "B"] : List String).length ∧ (0:ℕ) ≠ 1 ∧
     tsList [[(⟨"A", 0, 0⟩ : PEvent)], [⟨"B", 1, 1⟩]] 0 ≠ [] ∧
     tsList [[(⟨"A", 0, 0⟩ : PEvent)], [⟨"B", 1, 1⟩]] 1 ≠ []) ∧
    get_precede_succeed_matrix ["A", "B"] [[[⟨"A", 1, 1⟩], [⟨"B", 0, 0⟩]]] 0 1 ≤
      get_precede_succeed_matrix ["A", "B"]
        ([[[⟨"A", 1, 1⟩], [⟨"B", 0, 0⟩]]] ++ [[[⟨"A", 0, 0⟩], [⟨"B", 1, 1⟩]]]) 0 1 := by
  refine ⟨⟨by decide, by decide, by decide, by decide, by decide⟩, ?_⟩
  apply ps_matrix_monotone ["A", "B"] [[[⟨"A", 1, 1⟩], [⟨"B", 0, 0⟩]]]
    [[⟨"A", 0, 0⟩], [⟨"B", 1, 1⟩]] 0 1 (by decide) (by decide) (by decide)
    (by decide) (by decide)
  intro a ha b hb
  simp [tsList] at ha hb
  rw [ha, hb]
  norm_num

/-- Helper: the LIFO scan produces nothing once `ai` is exhausted. -/
theorem lifoLoop_nil_left : ∀ l : List ℚ, lifoLoop [] l = [] := by
  intro l
  induction l with
  | nil => rfl
  | cons u us ih =>
    have hd : dropGE u ([] : List ℚ) = [] := rfl
    rw [lifoLoop, hd]
    exact ih

/-- Helper: a leading reversed-`ai` element at or after `aj[z]` is skipped
permanently by the LIFO scan. -/
theorem lifoLoop_cons_ge (t u : ℚ) (ts us : List ℚ) (h : u ≤ t) :
    lifoLoop (t :: ts) (u :: us) = lifoLoop ts (u :: us) := by
  have hd : dropGE u (t :: ts) = dropGE u ts := by
    simp [dropGE, List.dropWhile_cons, h]
  conv_lhs => rw [lifoLoop, hd]
  conv_rhs => rw [lifoLoop]

/-- Helper: a leading reversed-`ai` element strictly before `aj[z]` is
matched, and both pointers move. -/
theorem lifoLoop_cons_lt (t u : ℚ) (ts us : List ℚ) (h : t < u) :
    lifoLoop (t :: ts) (u :: us) = (u - t) :: lifoLoop ts us := by
  have hd : dropGE u (t :: ts) = t :: ts := by
    simp [dropGE, List.dropWhile_cons, not_le.mpr h]
  rw [lifoLoop, hd]

/-- Helper: on a list whose last element bounds the rest, extracting the
latest element strictly after `t` either takes that last element or finds
nothing. -/
theorem extractLatestAfter_concat (t u : ℚ) (bs : List ℚ) (hb : ∀ b ∈ bs, b ≤ u) :
    extractLatestAfter t (bs ++ [u]) = if t < u then some (u, bs) else none := by
  induction bs with
  | nil => simp [extractLatestAfter]
  | cons b bs ih =>
    have hbu : b ≤ u := hb b (List.mem_cons_self b bs)
    have ih' := ih (fun x hx => hb x (List.mem_cons_of_mem b hx))
    by_cases h : t < u
    · simp [extractLatestAfter, ih', h]
    · have hb2 : ¬ t < b := fun hc => h (lt_of_lt_of_le hc hbu)
      simp [extractLatestAfter, ih', h, hb2]

/-- Helper: on a sorted `aj`, the spec's scan (over `ai` in decreasing
order, consuming the latest qualifying `aj` element) coincides with the
code's two-pointer LIFO scan over the reversed lists. -/
theorem lifoSpecScan_eq_lifoLoop (aiRev : List ℚ) :
    ∀ aj : List ℚ, List.Sorted (· ≤ ·) aj → lifoSpecScan aiRev aj = lifoLoop aiRev aj.reverse := by
  induction aiRev with
  | nil =>
    intro aj _
    rw [lifoSpecScan.eq_def]
    exact (lifoLoop_nil_left aj.reverse).symm
  | cons t ts ih =>
    intro aj haj
    rcases List.eq_nil_or_concat aj with rfl | ⟨bs, u, rfl⟩
    · have h1 : extractLatestAfter t ([] : List ℚ) = none := rfl
      rw [lifoSpecScan, h1]
      rw [ih [] (by simp)]
      rfl
    · rw [List.concat_eq_append] at haj ⊢
      rw [List.Sorted, List.pairwise_append] at haj
      have hbu : ∀ b ∈ bs, b ≤ u :=
        fun b hbmem => haj.2.2 b hbmem u (List.mem_singleton_self u)
      have hbs : List.Sorted (· ≤ ·) bs := haj.1
      have heLA := extractLatestAfter_concat t u bs hbu
      have hrev : (bs ++ [u]).reverse = u :: bs.reverse := by simp
      by_cases h : t < u
      · have hstep : lifoSpecScan (t :: ts) (bs ++ [u]) = (u - t) :: lifoSpecScan ts bs := by
          rw [lifoSpecScan, heLA, if_pos h]
        rw [hstep, ih bs hbs, hrev, lifoLoop_cons_lt t u ts bs.reverse h]
      · have hstep : lifoSpecScan (t :: ts) (bs ++ [u]) = lifoSpecScan ts (bs ++ [u]) := by
          rw [lifoSpecScan, heLA, if_neg h]
        rw [hstep, ih (bs ++ [u]) (List.pairwise_append.mpr haj), hrev,
          lifoLoop_cons_ge t u ts bs.reverse (not_lt.mp h)]

/-- C6: for a trace with sorted non-empty occurrence lists, the LIFO
sample list produced by the scan of `get_duration_matrix` (lines 174-184)
equals the gap list obtained by scanning `ai` in decreasing time order,
each time consuming the latest not-yet-consumed `j`-occurrence with a
strictly greater timestamp. -/
theorem lifo_trace_refines (ai aj : List ℚ)
    (hai : List.Sorted (· ≤ ·) ai) (haj : List.Sorted (· ≤ ·) aj)
    (h1 : ai ≠ []) (h2 : aj ≠ []) :
    lifoTrace ai aj = lifoSpecScan ai.reverse aj := by
  rw [lifoTrace, lifoSpecScan_eq_lifoLoop ai.reverse aj haj]

/-- Witness for C6 on a concrete trace (`ai` at times 1 and 4, `aj` at
times 2 and 3): both the code's scan and the spec's scan match only the
pair `(1, 3)`, giving the single gap `2`. -/
theorem lifo_trace_refines_witness :
    (List.Sorted (· ≤ ·) [(1:ℚ), 4] ∧ List.Sorted (· ≤ ·) [(2:ℚ), 3] ∧
     ([(1:ℚ), 4] ≠ ([] : List ℚ)) ∧ ([(2:ℚ), 3] ≠ ([] : List ℚ))) ∧
    lifoTrace [(1:ℚ), 4] [(2:ℚ), 3] = lifoSpecScan ([(1:ℚ), 4]).reverse [(2:ℚ), 3] ∧
    lifoTrace [(1:ℚ), 4] [(2:ℚ), 3] = [2] := by
  refine ⟨⟨by norm_num [List.sorted_cons], by norm_num [List.sorted_cons],
    by decide, by decide⟩, ?_, ?_⟩
  · exact lifo_trace_refines [(1:ℚ), 4] [(2:ℚ), 3]
      (by norm_num [List.sorted_cons]) (by norm_num [List.sorted_cons])
      (by decide) (by decide)
  · norm_num [lifoTrace, lifoLoop, dropGE]

/-- Helper: the original indices of a trace stream are `0, 1, 2, ...`. -/
theorem traceStream_map_index (trace : RawTrace) :
    (traceStream trace).map PEvent.index = List.range trace.length := by
  unfold traceStream
  rw [List.map_map]
  have hcomp : (PEvent.index ∘ fun p : ℕ × RawEvent =>
      ({ activity := p.2.activity, timestamp := p.2.timestamp, index := p.1 } : PEvent)) =
      Prod.fst := rfl
  rw [hcomp, List.enum_map_fst]

/-- Helper: the original indices remain pairwise distinct after sorting. -/
theorem traceStreamSorted_index_nodup (trace : RawTrace) :
    ((traceStreamSorted trace).map PEvent.index).Nodup := by
  have hperm : List.Perm ((traceStreamSorted trace).map PEvent.index)
      ((traceStream trace).map PEvent.index) :=
    (List.perm_insertionSort pKeyLE (traceStream trace)).map PEvent.index
  rw [hperm.nodup_iff, traceStream_map_index]
  exact List.nodup_range _

/-- C3 (code bug): `preprocess_log` returns `None` on every input, because
its body ends without a `return` statement; the per-case streams it builds
internally in `traces_list` do satisfy the claimed contract: each is a
permutation of the original (activity, timestamp-seconds, original-index)
triples, sorted by the lexicographic key (timestamp, index), and any two
events with equal timestamps keep their original relative order (strictly
increasing original indices). -/
theorem preprocess_log_contract (log : EventLog) (parameters : Params)
    (trace : RawTrace) (htr : trace ∈ log) :
    preprocess_log log parameters = none ∧
    traceStreamSorted trace ∈ preprocessTracesList log ∧
    (traceStreamSorted trace).Perm (traceStream trace) ∧
    List.Pairwise pKeyLE (traceStreamSorted trace) ∧
    List.Pairwise (fun a b => a.timestamp = b.timestamp → a.index < b.index)
      (traceStreamSorted trace) := by
  refine ⟨rfl, List.mem_map_of_mem traceStreamSorted htr,
    List.perm_insertionSort pKeyLE (traceStream trace),
    List.sorted_insertionSort pKeyLE (traceStream trace), ?_⟩
  have hsorted : List.Pairwise pKeyLE (traceStreamSorted trace) :=
    List.sorted_insertionSort pKeyLE (traceStream trace)
  have hne : List.Pairwise (fun a b : PEvent => a.index ≠ b.index) (traceStreamSorted trace) :=
    List.pairwise_map.mp (traceStreamSorted_index_nodup trace)
  refine (hsorted.and hne).imp ?_
  intro a b h hts
  rcases h.1 with hlt | ⟨_, hle⟩
  · exact absurd (hts ▸ hlt) (lt_irrefl _)
  · exact lt_of_le_of_ne hle h.2

/-- Witness for C3 on the one-case log `B@5, A@5, C@3`: the sorted stream
is `C@3` (index 2) first, then `B@5` (index 0) before `A@5` (index 1) —
the two equal-timestamp events keep their original relative order — and
`preprocess_log` still returns `None`. -/
theorem preprocess_log_contract_witness :
    ([⟨"B", 5⟩, ⟨"A", 5⟩, ⟨"C", 3⟩] ∈ ([[⟨"B", 5⟩, ⟨"A", 5⟩, ⟨"C", 3⟩]] : EventLog)) ∧
    (preprocess_log [[⟨"B", 5⟩, ⟨"A", 5⟩, ⟨"C", 3⟩]] [] = none ∧
     traceStreamSorted [⟨"B", 5⟩, ⟨"A", 5⟩, ⟨"C", 3⟩] ∈
       preprocessTracesList [[⟨"B", 5⟩, ⟨"A", 5⟩, ⟨"C", 3⟩]] ∧
     (traceStreamSorted [⟨"B", 5⟩, ⟨"A", 5⟩, ⟨"C", 3⟩]).Perm
       (traceStream [⟨"B", 5⟩, ⟨"A", 5⟩, ⟨"C", 3⟩]) ∧
     List.Pairwise pKeyLE (traceStreamSorted [⟨"B", 5⟩, ⟨"A", 5⟩, ⟨"C", 3⟩]) ∧
     List.Pairwise (fun a b => a.timestamp = b.timestamp → a.index < b.index)
       (traceStreamSorted [⟨"B", 5⟩, ⟨"A", 5⟩, ⟨"C", 3⟩])) ∧
    traceStreamSorted [⟨"B", 5⟩, ⟨"A", 5⟩, ⟨"C", 3⟩] =
      [⟨"C", 3, 2⟩, ⟨"B", 5, 0⟩, ⟨"A", 5, 1⟩] := by
  refine ⟨by decide, preprocess_log_contract [[⟨"B", 5⟩, ⟨"A", 5⟩, ⟨"C", 3⟩]] []
    [⟨"B", 5⟩, ⟨"A", 5⟩, ⟨"C", 3⟩] (by decide), by decide⟩

/-- Helper: `outWeight` distributes over concatenation. -/
theorem outWeight_append (g1 g2 : Dfg) (a : String) :
    outWeight (g1 ++ g2) a = outWeight g1 a + outWeight g2 a := by
  simp [outWeight, List.filter_append]

/-- Helper: `inWeight` distributes over concatenation. -/
theorem inWeight_append (g1 g2 : Dfg) (a : String) :
    inWeight (g1 ++ g2) a = inWeight g1 a + inWeight g2 a := by
  simp [inWeight, List.filter_append]

/-- Helper: `outWeight` over a `flatMap` is the sum of the group weights. -/
theorem outWeight_flatMap (L : List ℕ) (f : ℕ → Dfg) (a : String) :
    outWeight (L.flatMap f) a = (L.map (fun i => outWeight (f i) a)).sum := by
  induction L with
  | nil => rfl
  | cons i is ih =>
    rw [List.flatMap_cons, outWeight_append, ih, List.map_cons, List.sum_cons]

/-- Helper: `inWeight` over a `flatMap` is the sum of the group weights. -/
theorem inWeight_flatMap (L : List ℕ) (f : ℕ → Dfg) (a : String) :
    inWeight (L.flatMap f) a = (L.map (fun i => inWeight (f i) a)).sum := by
  induction L with
  | nil => rfl
  | cons i is ih =>
    rw [List.flatMap_cons, inWeight_append, ih, List.map_cons, List.sum_cons]

/-- Helper: resolved edge weights are non-negative. -/
theorem edgeWeight_nonneg (C : ℕ → ℕ → ℚ) (n : ℕ) (counter : String → ℕ)
    (activities : List String) (i j : ℕ) :
    0 ≤ edgeWeight C n counter activities i j := by
  unfold edgeWeight
  apply le_min <;> positivity

/-- Helper: a bounded-entry list sums to at most its length times the
bound. -/
theorem sum_map_le_length_mul (l : List ℕ) (f : ℕ → ℚ) (c : ℚ)
    (h : ∀ x ∈ l, f x ≤ c) :
    (l.map f).sum ≤ (l.length : ℚ) * c := by
  induction l with
  | nil => simp
  | cons x xs ih =>
    simp only [List.map_cons, List.sum_cons, List.length_cons]
    have h1 := h x (List.mem_cons_self x xs)
    have h2 := ih (fun y hy => h y (List.mem_cons_of_mem x hy))
    push_cast
    linarith

/-- Helper: a pointwise bound on the entries bounds the sums. -/
theorem sum_map_mono (l : List ℕ) (f g : ℕ → ℚ) (h : ∀ x ∈ l, f x ≤ g x) :
    (l.map f).sum ≤ (l.map g).sum := by
  induction l with
  | nil => simp
  | cons x xs ih =>
    simp only [List.map_cons, List.sum_cons]
    have h1 := h x (List.mem_cons_self x xs)
    have h2 := ih (fun y hy => h y (List.mem_cons_of_mem x hy))
    linarith

/-- Helper: summing a constant over the filtered positions. -/
theorem sum_map_ite (l : List ℕ) (p : ℕ → Bool) (c : ℚ) :
    (l.map (fun i => if p i then c else 0)).sum = ((l.filter p).length : ℚ) * c := by
  induction l with
  | nil => simp
  | cons x xs ih =>
    by_cases h : p x <;> simp [List.filter_cons, h, ih] <;> push_cast <;> ring

/-- Helper: a sum all of whose terms vanish except at one position of a
duplicate-free index list reduces to that term. -/
theorem sum_map_single (l : List ℕ) (g : ℕ → ℚ) (i0 : ℕ) (hnd : l.Nodup)
    (hmem : i0 ∈ l) (hz : ∀ i ∈ l, i ≠ i0 → g i = 0) :
    (l.map g).sum = g i0 := by
  induction l with
  | nil => cases hmem
  | cons x xs ih =>
    rcases List.nodup_cons.mp hnd with ⟨hx, hxs⟩
    rcases List.mem_cons.mp hmem with rfl | hmem'
    · have hall : ∀ y ∈ xs.map g, y = 0 := by
        rintro y hy
        rcases List.mem_map.mp hy with ⟨i, hi, rfl⟩
        exact hz i (List.mem_cons_of_mem _ hi) (by rintro rfl; exact hx hi)
      simp [List.sum_eq_zero hall]
    · have hgx : g x = 0 :=
        hz x (List.mem_cons_self x xs) (by rintro rfl; exact hx hmem')
      simp only [List.map_cons, List.sum_cons, hgx, zero_add]
      exact ih hxs hmem' (fun i hi hne => hz i (List.mem_cons_of_mem x hi) hne)

/-- Helper: with pairwise-distinct labels, indices and labels are in
bijection. -/
theorem actLabel_inj (activities : List String) (hnd : activities.Nodup) (i j : ℕ)
    (hi : i < activities.length) (hj : j < activities.length) :
    actLabel activities i = actLabel activities j ↔ i = j := by
  unfold actLabel
  rw [List.getD_eq_getElem?_getD, List.getD_eq_getElem?_getD,
    List.getElem?_eq_getElem hi, List.getElem?_eq_getElem hj]
  simpa using hnd.getElem_inj_iff

/-- Helper: the summed outgoing weight of one source group. -/
theorem outWeight_group (C : ℕ → ℕ → ℚ) (n : ℕ) (counter : String → ℕ)
    (activities : List String) (i : ℕ) (a : String) :
    outWeight ((retainedOf C n counter activities i).map (fun j =>
      ((actLabel activities i, actLabel activities j),
       edgeWeight C n counter activities i j))) a =
    if actLabel activities i = a
    then ((retainedOf C n counter activities i).map
           (fun j => edgeWeight C n counter activities i j)).sum
    else 0 := by
  unfold outWeight
  rw [List.filter_map]
  by_cases h : actLabel activities i = a
  · rw [if_pos h]
    have hp : ((fun e : (String × String) × ℚ => decide (e.1.1 = a)) ∘
        (fun j => ((actLabel activities i, actLabel activities j),
          edgeWeight C n counter activities i j))) = fun _ => true := by
      funext j
      simp [h]
    rw [hp, List.filter_true, List.map_map]
    rfl
  · rw [if_neg h]
    have hp : ((fun e : (String × String) × ℚ => decide (e.1.1 = a)) ∘
        (fun j => ((actLabel activities i, actLabel activities j),
          edgeWeight C n counter activities i j))) = fun _ => false := by
      funext j
      simp [h]
    rw [hp, List.filter_false]
    rfl

/-- Helper: one source group's total weight is at most the source's count:
each retained edge weighs at most `count / outdegree`, and there are at
most `outdegree` of them. -/
theorem sum_edgeWeight_le (C : ℕ → ℕ → ℚ) (n : ℕ) (counter : String → ℕ)
    (activities : List String) (i : ℕ) :
    ((retainedOf C n counter activities i).map
      (fun j => edgeWeight C n counter activities i j)).sum ≤
      (counter (actLabel activities i) : ℚ) := by
  have hsub : (retainedOf C n counter activities i).length ≤ (outsOf C n i).length :=
    (List.filter_sublist _).length_le
  rcases Nat.eq_zero_or_pos (outsOf C n i).length with h0 | hpos
  · have hnil : retainedOf C n counter activities i = [] :=
      List.length_eq_zero.mp (Nat.le_zero.mp (h0 ▸ hsub))
    rw [hnil]
    simp
  · have hterm : ∀ j ∈ retainedOf C n counter activities i,
        edgeWeight C n counter activities i j ≤
          (counter (actLabel activities i) : ℚ) / ((outsOf C n i).length : ℚ) :=
      fun j _ => min_le_left _ _
    have hlen : ((retainedOf C n counter activities i).length : ℚ) ≤
        ((outsOf C n i).length : ℚ) := by exact_mod_cast hsub
    have hquot : (0:ℚ) ≤
        (counter (actLabel activities i) : ℚ) / ((outsOf C n i).length : ℚ) := by
      positivity
    calc ((retainedOf C n counter activities i).map
            (fun j => edgeWeight C n counter activities i j)).sum
        ≤ ((retainedOf C n counter activities i).length : ℚ) *
            ((counter (actLabel activities i) : ℚ) / ((outsOf C n i).length : ℚ)) :=
          sum_map_le_length_mul _ _ _ hterm
      _ ≤ ((outsOf C n i).length : ℚ) *
            ((counter (actLabel activities i) : ℚ) / ((outsOf C n i).length : ℚ)) :=
          mul_le_mul_of_nonneg_right hlen hquot
      _ = (counter (actLabel activities i) : ℚ) := by
          have hne : ((outsOf C n i).length : ℚ) ≠ 0 := by
            exact_mod_cast Nat.pos_iff_ne_zero.mp hpos
          field_simp

/-- Helper: outgoing flow conservation of the modelled resolver, for any
causality matrix, any counter and any duplicate-free alphabet. -/
theorem outWeight_freqEdges_le (C : ℕ → ℕ → ℚ) (activities : List String)
    (counter : String → ℕ) (hnd : activities.Nodup) (a : String) :
    outWeight (freqEdges C activities counter) a ≤ (counter a : ℚ) := by
  rw [freqEdges, outWeight_flatMap]
  by_cases hmem : ∃ i0, i0 < activities.length ∧ actLabel activities i0 = a
  · obtain ⟨i0, hi0, hlab⟩ := hmem
    rw [sum_map_single (List.range activities.length) _ i0 (List.nodup_range _)
      (List.mem_range.mpr hi0) ?_]
    · rw [outWeight_group, if_pos hlab]
      calc ((retainedOf C activities.length counter activities i0).map
              (fun j => edgeWeight C activities.length counter activities i0 j)).sum
          ≤ (counter (actLabel activities i0) : ℚ) := sum_edgeWeight_le _ _ _ _ _
        _ = (counter a : ℚ) := by rw [hlab]
    · intro i hi hne
      rw [outWeight_group, if_neg ?_]
      intro hcl
      exact hne ((actLabel_inj activities hnd i i0 (List.mem_range.mp hi) hi0).mp
        (hcl.trans hlab.symm))
  · have hzero : ∀ y ∈ (List.range activities.length).map
        (fun i => outWeight ((retainedOf C activities.length counter activities i).map
          (fun j => ((actLabel activities i, actLabel activities j),
            edgeWeight C activities.length counter activities i j))) a), y = 0 := by
      rintro y hy
      rcases List.mem_map.mp hy with ⟨i, hi, rfl⟩
      rw [outWeight_group, if_neg (fun h => hmem ⟨i, List.mem_range.mp hi, h⟩)]
    rw [List.sum_eq_zero hzero]
    positivity

/-- Helper: filtering a duplicate-free index list down to one value. -/
theorem filter_eq_singleton (l : List ℕ) (j0 : ℕ) (hnd : l.Nodup) :
    l.filter (fun x => decide (x = j0)) = if j0 ∈ l then [j0] else [] := by
  induction l with
  | nil => simp
  | cons x xs ih =>
    rcases List.nodup_cons.mp hnd with ⟨hx, hxs⟩
    by_cases h : x = j0
    · subst h
      simp [List.filter_cons, ih hxs, hx]
    · simp [List.filter_cons, h, ih hxs, Ne.symm h]

/-- Helper: the retained out-lists are duplicate-free. -/
theorem retainedOf_nodup (C : ℕ → ℕ → ℚ) (n : ℕ) (counter : String → ℕ)
    (activities : List String) (i : ℕ) :
    (retainedOf C n counter activities i).Nodup :=
  ((List.nodup_range n).filter _).filter _

/-- Helper: the incoming weight of one source group, at the label of a
fixed in-range target index. -/
theorem inWeight_group (C : ℕ → ℕ → ℚ) (counter : String → ℕ)
    (activities : List String) (hnd : activities.Nodup) (i j0 : ℕ)
    (hj0 : j0 < activities.length) (a : String) (hlab : actLabel activities j0 = a) :
    inWeight ((retainedOf C activities.length counter activities i).map (fun j =>
      ((actLabel activities i, actLabel activities j),
       edgeWeight C activities.length counter activities i j))) a =
    if j0 ∈ retainedOf C activities.length counter activities i
    then edgeWeight C activities.length counter activities i j0 else 0 := by
  unfold inWeight
  rw [List.filter_map]
  have hcongr : List.filter ((fun e : (String × String) × ℚ => decide (e.1.2 = a)) ∘
      (fun j => ((actLabel activities i, actLabel activities j),
        edgeWeight C activities.length counter activities i j)))
      (retainedOf C activities.length counter activities i) =
      List.filter (fun j => decide (j = j0))
      (retainedOf C activities.length counter activities i) := by
    apply List.filter_congr
    intro j hj
    have hjn : j < activities.length :=
      List.mem_range.mp (List.mem_of_mem_filter (List.mem_of_mem_filter hj))
    simp only [Function.comp]
    rw [← hlab]
    simp [actLabel_inj activities hnd j j0 hjn hj0]
  rw [hcongr, filter_eq_singleton _ j0 (retainedOf_nodup C activities.length counter activities i)]
  by_cases hm : j0 ∈ retainedOf C activities.length counter activities i
  · rw [if_pos hm, if_pos hm]
    simp
  · rw [if_neg hm, if_neg hm]
    rfl

/-- Helper: a source group has no incoming weight at a label borne by no
alphabet index. -/
theorem inWeight_group_none (C : ℕ → ℕ → ℚ) (n : ℕ) (counter : String → ℕ)
    (activities : List String) (i : ℕ) (a : String)
    (h : ∀ j ∈ retainedOf C n counter activities i, actLabel activities j ≠ a) :
    inWeight ((retainedOf C n counter activities i).map (fun j =>
      ((actLabel activities i, actLabel activities j),
       edgeWeight C n counter activities i j))) a = 0 := by
  unfold inWeight
  rw [List.filter_map]
  have hnil : List.filter ((fun e : (String × String) × ℚ => decide (e.1.2 = a)) ∘
      (fun j => ((actLabel activities i, actLabel activities j),
        edgeWeight C n counter activities i j)))
      (retainedOf C n counter activities i) = [] := by
    rw [List.filter_eq_nil_iff]
    intro j hj
    simp [h j hj]
  rw [hnil]
  rfl

/-- Helper: incoming flow conservation of the modelled resolver: each
retained in-edge of the target weighs at most `count / indegree`, and the
retained in-edges are among the `indegree` proposed ones. -/
theorem inWeight_freqEdges_le (C : ℕ → ℕ → ℚ) (activities : List String)
    (counter : String → ℕ) (hnd : activities.Nodup) (a : String) :
    inWeight (freqEdges C activities counter) a ≤ (counter a : ℚ) := by
  rw [freqEdges, inWeight_flatMap]
  by_cases hmem : ∃ j0, j0 < activities.length ∧ actLabel activities j0 = a
  · obtain ⟨j0, hj0, hlab⟩ := hmem
    have hpt : ∀ i ∈ List.range activities.length,
        inWeight ((retainedOf C activities.length counter activities i).map (fun j =>
          ((actLabel activities i, actLabel activities j),
           edgeWeight C activities.length counter activities i j))) a ≤
        (if proposedB C i j0
         then (counter a : ℚ) / ((insOf C activities.length j0).length : ℚ) else 0) := by
      intro i _
      rw [inWeight_group C counter activities hnd i j0 hj0 a hlab]
      by_cases hm : j0 ∈ retainedOf C activities.length counter activities i
      · have hout : j0 ∈ outsOf C activities.length i := List.mem_of_mem_filter hm
        have hprop : proposedB C i j0 = true := (List.mem_filter.mp hout).2
        rw [if_pos hm, if_pos hprop]
        calc edgeWeight C activities.length counter activities i j0
            ≤ (counter (actLabel activities j0) : ℚ) /
                ((insOf C activities.length j0).length : ℚ) := min_le_right _ _
          _ = (counter a : ℚ) / ((insOf C activities.length j0).length : ℚ) := by
              rw [hlab]
      · rw [if_neg hm]
        by_cases hprop : proposedB C i j0
        · rw [if_pos hprop]
          positivity
        · rw [if_neg hprop]
    have hsum := sum_map_mono (List.range activities.length) _ _ hpt
    rw [sum_map_ite] at hsum
    have hins : (List.range activities.length).filter (fun i => proposedB C i j0) =
        insOf C activities.length j0 := rfl
    rw [hins] at hsum
    rcases Nat.eq_zero_or_pos (insOf C activities.length j0).length with h0 | hpos
    · rw [h0] at hsum
      simp only [Nat.cast_zero, zero_mul] at hsum
      exact le_trans hsum (by positivity)
    · have hne : ((insOf C activities.length j0).length : ℚ) ≠ 0 := by
        exact_mod_cast Nat.pos_iff_ne_zero.mp hpos
      have heq : ((insOf C activities.length j0).length : ℚ) *
          ((counter a : ℚ) / ((insOf C activities.length j0).length : ℚ)) =
          (counter a : ℚ) := by field_simp
      rw [heq] at hsum
      exact hsum
  · have hzero : ∀ y ∈ (List.range activities.length).map
        (fun i => inWeight ((retainedOf C activities.length counter activities i).map
          (fun j => ((actLabel activities i, actLabel activities j),
            edgeWeight C activities.length counter activities i j))) a), y = 0 := by
      rintro y hy
      rcases List.mem_map.mp hy with ⟨i, _, rfl⟩
      apply inWeight_group_none
      intro j hj hcl
      have hjn : j < activities.length :=
        List.mem_range.mp (List.mem_of_mem_filter (List.mem_of_mem_filter hj))
      exact hmem ⟨j, hjn, hcl⟩
    rw [List.sum_eq_zero hzero]
    positivity

/-- Helper: the trace stream carries the same activity list as the raw
trace. -/
theorem traceStream_map_activity (tr : RawTrace) :
    (traceStream tr).map PEvent.activity = tr.map RawEvent.activity := by
  unfold traceStream
  rw [List.map_map]
  have hcomp : (PEvent.activity ∘ fun p : ℕ × RawEvent =>
      ({ activity := p.2.activity, timestamp := p.2.timestamp, index := p.1 } : PEvent)) =
      RawEvent.activity ∘ Prod.snd := rfl
  rw [hcomp, ← List.map_map, List.enum_map_snd]

/-- Helper: the counter computed at line 50 counts exactly the occurrences
of each activity label in the raw log. -/
theorem activitiesCounter_preprocess (log : EventLog) (a : String) :
    activitiesCounter (preprocessTracesList log) a = occInLog log a := by
  unfold activitiesCounter occInLog allActivities preprocessTracesList
  induction log with
  | nil => rfl
  | cons tr trs ih =>
    simp only [List.map_cons, List.flatten_cons, List.count_append]
    rw [ih]
    congr 1
    have hperm : List.Perm ((traceStreamSorted tr).map PEvent.activity)
        ((traceStream tr).map PEvent.activity) :=
      (List.perm_insertionSort pKeyLE (traceStream tr)).map PEvent.activity
    calc List.count a ((traceStreamSorted tr).map PEvent.activity)
        = List.count a ((traceStream tr).map PEvent.activity) := hperm.count_eq a
      _ = List.count a (tr.map RawEvent.activity) := by rw [traceStream_map_activity]

/-- Helper: the sorted distinct alphabet of line 51 is duplicate-free. -/
theorem activitiesOf_nodup (tracesList : List (List PEvent)) :
    (activitiesOf tracesList).Nodup :=
  (List.perm_insertionSort _ _).nodup_iff.mpr (List.nodup_dedup _)

/-- C10 (code bug): the claim speaks of the Frequency DFG returned by
`apply`, but `apply` as written returns no DFG on any input — it raises
`NameError` at the unbound `traces_list` of line 50 (first conjunct).
The claimed flow-conservation contract does hold of the pipeline `apply`
runs from line 50 on (`applyWithTraces` on the preprocessed traces, with
the resolver modelled from the spec): every activity's summed outgoing
edge weight and summed incoming edge weight in the Frequency DFG are
bounded by its total occurrence count in the log (remaining conjuncts). -/
theorem apply_flow_conservation (log : EventLog) (parameters : Params) (a : String) :
    apply log parameters = Except.error (PyError.nameError "traces_list") ∧
    outWeight (applyWithTraces (preprocessTracesList log)).1 a ≤ (occInLog log a : ℚ) ∧
    inWeight (applyWithTraces (preprocessTracesList log)).1 a ≤ (occInLog log a : ℚ) := by
  have hnd := activitiesOf_nodup (preprocessTracesList log)
  have hname : ¬ ("traces_list" ∈ applyLocalNames ∨ "traces_list" ∈ moduleGlobalNames) := by
    decide
  refine ⟨by simp only [apply, if_neg hname], ?_, ?_⟩
  · rw [← activitiesCounter_preprocess log a]
    exact outWeight_freqEdges_le _ _ _ hnd a
  · rw [← activitiesCounter_preprocess log a]
    exact inWeight_freqEdges_le _ _ _ hnd a

end CorrMining
